import Mathlib

/-!
Verification of the pinyin composition engine of the six-key keyboard
(component KeyboardLayout with its helpers, plus the matcher
matchesGroups).

Modelling conventions, fixed once for the whole file:

* JS strings are modelled as `List Char`; JS string indexing/`slice`/`+`
  become list operations.  `toLowerCase` becomes `Char.toLower` pointwise
  (the source only ever lowercases latin letters).
* A JS number produced by the scoring code is always an integer multiple
  of 0.1 (bases 0/50/100/150, bonuses 200/50/5·len/10·freq, penalties
  idx·0.1 and idx·0.5).  Scores are therefore represented exactly as
  `Int` values measured in TENTHS of a point: base 150 becomes 1500,
  a bonus of `5 * len` becomes `50 * len`, a penalty `idx * 0.1` becomes
  `idx`, and so on.  The ordering and all equalities between scores are
  preserved exactly by this scaling.
* A JS `Record<string, number>` is modelled as an association list in
  which the most recent binding is put in front (the JS spread update
  `\x7b...prev, [k]: v\x7d` has exactly this lookup behaviour).
* React `useState` cells of the component become fields of `CompState`;
  an event handler becomes a function `CompState → CompState × Effects`
  where `Effects` records the `onKeyPress` (text emitted to the host)
  and `onDelete` (host backspace) calls the handler performs.  The
  purely visual state (`page`, `isExpanded`, `activeGroup`, `slideIndex`,
  hand mode) is outside the data model of the claims and is omitted.
* The `useEffect` on `pinyinKeys` clears `focusedPinyinCandidate`
  whenever the key buffer is replaced; every transition below that
  writes `pinyinKeys` therefore also sets the focus to `none`.
* The dictionary constants (VALID_PINYINS, PINYIN_TO_HANZI,
  COMMON_PHRASES from constants.ts) are not part of the sources under
  verification, so all functions are parametrised by a `Dict` record.
-/

/-- The `action` ids of the non-letter keys that `handleTap` inspects
(the source uses string literals). -/
inductive ActionK where
  | backspace
  | space
  | enter
  | onehand
  | close
deriving DecidableEq, Repr

/-- Key type tags, from types.ts (`'char-group' | 'action' | 'placeholder'`). -/
inductive KType where
  | charGroup
  | action
  | placeholder
deriving DecidableEq, Repr

/-- A `KeyGroup` from types.ts; only the fields the engine reads are kept
(`label`, `subLabel` and `width` are purely visual). -/
structure KeyGroup where
  chars : Option (List Char) := none
  act : Option ActionK := none
  typ : KType := KType.charGroup
deriving DecidableEq, Repr

/-- A `Segment`: a recognized pinyin string plus the number of key groups
it consumes. -/
structure Segment where
  str : List Char
  len : Nat
deriving DecidableEq, Repr

/-- Candidate kinds (`'phrase' | 'char' | 'raw'`). -/
inductive CType where
  | phrase
  | char
  | raw
deriving DecidableEq, Repr

/-- Candidate mode toggle (`'word' | 'char'`). -/
inductive CMode where
  | word
  | char
deriving DecidableEq, Repr

/-- A displayable `Candidate`.  `score` is in tenths (see header). -/
structure Candidate where
  display : List Char
  value : List Char
  score : Int
  consumedLen : Nat
  type : CType
deriving DecidableEq, Repr

/-- A `HistoryItem` of `selectionHistory`. -/
structure HistoryItem where
  text : List Char
  keys : List KeyGroup
deriving DecidableEq, Repr

/-- The dictionary: the set of valid pinyin syllables, the
syllable → hanzi table and the (apostrophe-joined) multi-syllable
key → phrase table.  Tables are association lists preserving the
authored order of their value lists. -/
structure Dict where
  valid : List (List Char)
  toHanzi : List (List Char × List (List Char))
  phrases : List (List Char × List (List Char))
deriving DecidableEq, Repr

/-- JS object-key lookup on an association list (first binding wins). -/
def lookupL {α : Type} (k : List Char) : List (List Char × α) → Option α
  | [] => none
  | kv :: rest => if kv.1 = k then some kv.2 else lookupL k rest

/-- The apostrophe used to join syllables into a phrase key. -/
def apoChar : Char := Char.ofNat 39

/-- The space character. -/
def spaceChar : Char := Char.ofNat 32

/-- The newline character. -/
def nlChar : Char := Char.ofNat 10

/-- The per-position loop body of `matchesGroups`: the target letter is
lowercased, the group letters are compared as written; a group without a
`chars` array fails at once. -/
def matchesAux : List Char → List KeyGroup → Bool
  | [], [] => true
  | c :: cs, g :: gs =>
      match g.chars with
      | none => false
      | some allowed => allowed.contains c.toLower && matchesAux cs gs
  | _, _ => false

/-- Model of `matchesGroups(target, groups)` from the source: false unless the
lengths agree, then the letterwise check. -/
def matchesGroups (target : List Char) (groups : List KeyGroup) : Bool :=
  if target.length = groups.length then matchesAux target groups else false

/-- Written from the SPEC's words for §4.1 (used only to compare with the
source's `matchesGroups`): the syllable's i-th letter case-folded must be
a member of the group's letters, the group's letters ALSO case-folded. -/
def matchesGroupsSpecAux : List Char → List KeyGroup → Bool
  | [], [] => true
  | c :: cs, g :: gs =>
      match g.chars with
      | none => false
      | some allowed => (allowed.map Char.toLower).contains c.toLower && matchesGroupsSpecAux cs gs
  | _, _ => false

/-- Spec-worded matcher (see `matchesGroupsSpecAux`). -/
def matchesGroupsSpec (target : List Char) (groups : List KeyGroup) : Bool :=
  if target.length = groups.length then matchesGroupsSpecAux target groups else false

/-!  ## JS `Array.prototype.sort`

The source sorts with numeric three-way comparators.  ECMAScript requires
the sort to be stable, and a stable sort w.r.t. a total preorder has a
unique output, so any stable sort is a faithful model; we use a stable
insertion sort (`a` is kept before `b` whenever the comparator does not
strictly demand the opposite order). -/

/-- Stable insertion of `a` into `l`: `a` goes in front of the first
element it may precede (`le a b`), so elements equal under the comparator
keep their original relative order. -/
def insertLe {α : Type} (le : α → α → Bool) (a : α) : List α → List α
  | [] => [a]
  | b :: bs => if le a b then a :: b :: bs else b :: insertLe le a bs

/-- Stable insertion sort. -/
def isortLe {α : Type} (le : α → α → Bool) : List α → List α
  | [] => []
  | a :: as => insertLe le a (isortLe le as)

theorem insertLe_perm {α : Type} (le : α → α → Bool) (a : α) :
    ∀ l : List α, (insertLe le a l).Perm (a :: l) := by
  intro l
  induction l with
  | nil => simp [insertLe]
  | cons b bs ih =>
      cases h : le a b with
      | true => simp [insertLe, h]
      | false =>
          simp only [insertLe, h, Bool.false_eq_true, if_false]
          exact ((ih.cons b).trans (List.Perm.swap a b bs))

theorem isortLe_perm {α : Type} (le : α → α → Bool) :
    ∀ l : List α, (isortLe le l).Perm l := by
  intro l
  induction l with
  | nil => simp [isortLe]
  | cons a as ih =>
      exact (insertLe_perm le a (isortLe le as)).trans (ih.cons a)

theorem mem_insertLe {α : Type} (le : α → α → Bool) (a : α) (l : List α) (x : α) :
    x ∈ insertLe le a l ↔ x = a ∨ x ∈ l := by
  have := (insertLe_perm le a l).mem_iff (a := x)
  simpa using this

theorem pairwise_insertLe {α : Type} (le : α → α → Bool)
    (htot : ∀ a b, le a b = true ∨ le b a = true)
    (htrans : ∀ a b c, le a b = true → le b c = true → le a c = true)
    (a : α) : ∀ l : List α, l.Pairwise (fun x y => le x y = true) →
      (insertLe le a l).Pairwise (fun x y => le x y = true) := by
  intro l
  induction l with
  | nil => intro _; simp [insertLe]
  | cons b bs ih =>
      intro h
      rcases List.pairwise_cons.mp h with ⟨hb, hbs⟩
      cases hab : le a b with
      | true =>
          simp only [insertLe, hab, if_true]
          refine List.pairwise_cons.mpr ⟨?_, h⟩
          intro y hy
          rcases List.mem_cons.mp hy with rfl | hy
          · exact hab
          · exact htrans a b y hab (hb y hy)
      | false =>
          simp only [insertLe, hab, Bool.false_eq_true, if_false]
          refine List.pairwise_cons.mpr ⟨?_, ih hbs⟩
          intro y hy
          rcases (mem_insertLe le a bs y).mp hy with rfl | hy
          · rcases htot b y with h1 | h1
            · exact h1
            · rw [hab] at h1; exact absurd h1 (by simp)
          · exact hb y hy

theorem pairwise_isortLe {α : Type} (le : α → α → Bool)
    (htot : ∀ a b, le a b = true ∨ le b a = true)
    (htrans : ∀ a b c, le a b = true → le b c = true → le a c = true) :
    ∀ l : List α, (isortLe le l).Pairwise (fun x y => le x y = true) := by
  intro l
  induction l with
  | nil => simp [isortLe]
  | cons a as ih => exact pairwise_insertLe le htot htrans a (isortLe le as) ih

/-!  ## Segmentation engine -/

/-- The chunk lengths tried at one buffer position: `1 .. min(6, remaining)`. -/
def chunkLens (keys : List KeyGroup) : List Nat := List.range' 1 (min 6 keys.length)

theorem mem_chunkLens (keys : List KeyGroup) (l : Nat) :
    l ∈ chunkLens keys ↔ 1 ≤ l ∧ l ≤ min 6 keys.length := by
  constructor
  · intro h
    have := List.mem_range'_1.mp h
    omega
  · intro h
    exact List.mem_range'_1.mpr (by omega)

/-- Model of the `≤ 0` comparison of the comparator
`(a, b) => a.len - b.len || a.str.localeCompare(b.str)` on ASCII pinyin
strings: lexicographic comparison of the code points. -/
def lexLe : List Char → List Char → Bool
  | [], _ => true
  | _ :: _, [] => false
  | a :: as, b :: bs => if a < b then true else if b < a then false else lexLe as bs

/-- The comparator of `availablePinyinSegments`' sort: length ascending,
ties broken lexicographically. -/
def segLeB (a b : Segment) : Bool :=
  if a.len < b.len then true else if b.len < a.len then false else lexLe a.str b.str

/-- The pre-sort enumeration inside `availablePinyinSegments`: for every
chunk length, every dictionary syllable of exactly that length matching
the buffer's prefix chunk, in dictionary order. -/
def prefixSegments (valid : List (List Char)) (keys : List KeyGroup) : List Segment :=
  (chunkLens keys).flatMap (fun len =>
    ((valid.filter (fun p => p.length == len && matchesGroups p (keys.take len))).map
      (fun m => ⟨m, len⟩)))

/-- Model of `availablePinyinSegments` from the source: empty buffer gives `[]`,
otherwise the prefix enumeration sorted by the comparator above. -/
def availablePinyinSegments (valid : List (List Char)) (keys : List KeyGroup) :
    List Segment :=
  if keys.length = 0 then [] else isortLe segLeB (prefixSegments valid keys)

/-- The memoised recursion `solve(index)` of the segmentation engine, with
the buffer suffix passed explicitly and structural fuel (the recursion
consumes at least one key per chunk, so fuel = remaining length suffices;
the memo table is pure caching and does not change the result). -/
def solveFuel (valid : List (List Char)) : Nat → List KeyGroup → List (List Segment)
  | _, [] => [[]]
  | 0, _ :: _ => []
  | Nat.succ n, k :: ks =>
      (chunkLens (k :: ks)).flatMap (fun len =>
        ((valid.filter (fun p => p.length == len && matchesGroups p ((k :: ks).take len))).flatMap
          (fun m => (solveFuel valid n ((k :: ks).drop len)).map
            (fun suffix => Segment.mk m len :: suffix))))

/-- The `segmentations` memo of the component: `[]` for an empty buffer
(the early return on line 128), otherwise `solve(0)`. -/
def segmentations (valid : List (List Char)) (keys : List KeyGroup) : List (List Segment) :=
  if keys.length = 0 then [] else solveFuel valid keys.length keys

/-- The decomposition property claimed for `segment`: the path partitions
the buffer into consecutive slices (so the segment lengths sum to the
buffer length), and each segment's string is a dictionary syllable of
length at most 6 that satisfies the matcher against exactly the slice it
consumes. -/
def isDecompOf (valid : List (List Char)) : List Segment → List KeyGroup → Bool
  | [], keys => keys.isEmpty
  | s :: rest, keys =>
      decide (s.len ≤ keys.length) && decide (s.str.length ≤ 6) &&
      valid.contains s.str && matchesGroups s.str (keys.take s.len) &&
      isDecompOf valid rest (keys.drop s.len)

/-!  ## Candidate ranker

`candidates` is rebuilt by calling `addResult` for each generated
suggestion in program order; `addResult` skips a suggestion whose
`(value, consumedLen)` pair was already processed, otherwise computes the
adjusted score and pushes the candidate.  We record the `addResult` call
sites as a list of `Emission`s in call order and fold the dedup over it.
Scores are in tenths of a point (file header), so `baseT 150` is `1500`,
the phrase-index penalty `idx * 0.1` is `idx`, and the hanzi-index
penalty `idx * 0.5` is `5 * idx`. -/

/-- One `addResult(display, value, baseScore, consumedLen, type, indexPenalty)`
call; `baseT` and `indexPenaltyT` are in tenths. -/
structure Emission where
  display : List Char
  value : List Char
  baseT : Int
  consumedLen : Nat
  etype : CType
  indexPenaltyT : Int
deriving DecidableEq, Repr

/-- Frequency lookup `usageHistory[value] || 0`. -/
def getFreq (h : List (List Char × Nat)) (v : List Char) : Nat :=
  (lookupL v h).getD 0

/-- The JS spread update incrementing `usageHistory[value]`. -/
def bumpFreq (h : List (List Char × Nat)) (v : List Char) : List (List Char × Nat) :=
  (v, getFreq h v + 1) :: h

/-- The score computation inside `addResult` (in tenths): mode adjustment,
`value.length * 5` bonus, `freq * 10` bonus, minus the index penalty. -/
def mkCandidate (mode : CMode) (usage : List (List Char × Nat)) (e : Emission) : Candidate :=
  let s1 : Int :=
    if mode = CMode.char ∧ e.etype = CType.char then e.baseT + 2000
    else if mode = CMode.word ∧ e.etype = CType.phrase then e.baseT + 500
    else e.baseT
  let s2 : Int := s1 + e.value.length * 50
  let s3 : Int := s2 + (getFreq usage e.value) * 100
  let s4 : Int := s3 - e.indexPenaltyT
  ⟨e.display, e.value, s4, e.consumedLen, e.etype⟩

/-- The dedup key of a candidate (`value-consumedLen`; the `-`-joined JS
string key is injective on (string, number) pairs, so the pair itself). -/
def pairKey (c : Candidate) : List Char × Nat := (c.value, c.consumedLen)

/-- The dedup key of an emission. -/
def ePairKey (e : Emission) : List Char × Nat := (e.value, e.consumedLen)

/-- Folding `addResult` over the emissions with the `processed` set. -/
def addEmissions (mode : CMode) (usage : List (List Char × Nat)) :
    List Emission → List (List Char × Nat) → List Candidate
  | [], _ => []
  | e :: es, seen =>
      if ePairKey e ∈ seen then addEmissions mode usage es seen
      else mkCandidate mode usage e :: addEmissions mode usage es (ePairKey e :: seen)

/-- Model of `forEach` with the element index. -/
def withIdx {α : Type} (n : Nat) : List α → List (Nat × α)
  | [] => []
  | a :: as => (n, a) :: withIdx (n + 1) as

/-- The phrase emissions produced at one accumulation step (LOGIC B,
inner dictionary check): every listed phrase, base 150, penalty idx·0.1. -/
def phraseEmissionsAt (d : Dict) (acc : List Char) (accLen : Nat) : List Emission :=
  match lookupL acc d.phrases with
  | some phl => (withIdx 0 phl).map (fun p => ⟨p.2, p.2, 1500, accLen, CType.phrase, p.1⟩)
  | none => []

/-- The accumulation steps after the first: each further syllable is
joined with an apostrophe and its length added. -/
def accumStepsAux (acc : List Char) (n : Nat) : List Segment → List (List Char × Nat)
  | [] => []
  | s :: rest =>
      (acc ++ apoChar :: s.str, n + s.len) ::
        accumStepsAux (acc ++ apoChar :: s.str) (n + s.len) rest

/-- The `(accumulatedPinyin, accumulatedLen)` pairs visited by the
`for i < min(segPath.length, 4)` loop. -/
def accumSteps (segPath : List Segment) : List (List Char × Nat) :=
  match segPath.take 4 with
  | [] => []
  | s :: rest => (s.str, s.len) :: accumStepsAux s.str s.len rest

/-- All emissions of one segmentation path: the phrase emissions of every
accumulation step, then the hanzi of the first segment (base 50, penalty
idx·0.5).  An empty path emits nothing (the early `return`). -/
def pathEmissions (d : Dict) (segPath : List Segment) : List Emission :=
  match segPath with
  | [] => []
  | firstSeg :: _ =>
      ((accumSteps segPath).flatMap (fun st => phraseEmissionsAt d st.1 st.2)) ++
      (match lookupL firstSeg.str d.toHanzi with
       | some hs => (withIdx 0 hs).map (fun p => ⟨p.2, p.2, 500, firstSeg.len, CType.char, 5 * p.1⟩)
       | none => [])

/-- The fallback's raw reading `pinyinKeys.map(k => k.chars?.[0] || '?').join('')`. -/
def rawOf (keys : List KeyGroup) : List Char :=
  keys.map (fun k =>
    match k.chars with
    | some (c :: _) => c
    | _ => '?')

/-- Every `addResult` call of the `candidates` memo in program order:
LOGIC A when a pinyin segment is focused (hanzi of that syllable, base
100, penalty idx·0.1; the phrase loop of LOGIC A emits nothing), LOGIC B
otherwise (each segmentation path in order), and the raw fallback when no
segmentation exists. -/
def emissionsOf (d : Dict) (keys : List KeyGroup) (focus : Option Segment) : List Emission :=
  match focus with
  | some fc =>
      (match lookupL fc.str d.toHanzi with
       | some hs => (withIdx 0 hs).map (fun p => ⟨p.2, p.2, 1000, fc.len, CType.char, p.1⟩)
       | none => [])
  | none =>
      let segs := segmentations d.valid keys
      if segs.length ≠ 0 then segs.flatMap (pathEmissions d)
      else [⟨rawOf keys, rawOf keys, 0, keys.length, CType.raw, 0⟩]

/-- The final sort `(a, b) => b.score - a.score` (stable, descending). -/
def sortCands (l : List Candidate) : List Candidate :=
  isortLe (fun a b => decide (b.score ≤ a.score)) l

/-- The `candidates` memo: `[]` for an empty buffer, otherwise the
deduplicated emissions sorted by descending score. -/
def candidates (d : Dict) (keys : List KeyGroup) (focus : Option Segment)
    (mode : CMode) (usage : List (List Char × Nat)) : List Candidate :=
  if keys.length = 0 then []
  else sortCands (addEmissions mode usage (emissionsOf d keys focus) [])

/-!  ## Composition state machine -/

/-- The composition-relevant `useState` cells of the component. -/
structure CompState where
  pinyinKeys : List KeyGroup
  stagedText : List Char
  selectionHistory : List HistoryItem
  focusedPinyinCandidate : Option Segment
  candidateMode : CMode
  usageHistory : List (List Char × Nat)
deriving DecidableEq, Repr

/-- The calls a handler makes to the host: `onKeyPress` texts in order,
and whether `onDelete` was called. -/
structure Effects where
  emitted : List (List Char)
  hostDelete : Bool
deriving DecidableEq, Repr

/-- No host calls. -/
def noFx : Effects := ⟨[], false⟩

/-- The initial component state (all cells empty, mode `'word'`). -/
def initState : CompState :=
  ⟨[], [], [], none, CMode.word, []⟩

/-- Model of `clearComposition()`: reset every composition field (`usageHistory`
and `candidateMode` survive). -/
def clearComposition (s : CompState) : CompState :=
  { s with pinyinKeys := [], stagedText := [], selectionHistory := [],
           focusedPinyinCandidate := none }

/-- The candidates currently offered, as derived from the state. -/
def candidatesOf (d : Dict) (s : CompState) : List Candidate :=
  candidates d s.pinyinKeys s.focusedPinyinCandidate s.candidateMode s.usageHistory

/-- JS `str.slice(0, -n)`: for `n = 0` the end index is `-0 = 0` and the
result is empty; for `n > 0` the last `n` units are removed (clamped). -/
def stagedSlice (t : List Char) (n : Nat) : List Char :=
  if n = 0 then [] else t.take (t.length - n)

/-- Model of `handleCandidateSelect`: bump the frequency, stage the text, split the
buffer at `consumedLen`; commit everything if no keys remain, otherwise
push the history entry and keep composing (focus is reset). -/
def handleCandidateSelect (c : Candidate) (s : CompState) : CompState × Effects :=
  let usage2 := bumpFreq s.usageHistory c.value
  let newStagedText := s.stagedText ++ c.value
  let consumedKeys := s.pinyinKeys.take c.consumedLen
  let remainingKeys := s.pinyinKeys.drop c.consumedLen
  if remainingKeys.length = 0 then
    ({ clearComposition s with usageHistory := usage2 }, ⟨[newStagedText], false⟩)
  else
    ({ s with usageHistory := usage2,
              selectionHistory := s.selectionHistory ++ [⟨c.value, consumedKeys⟩],
              stagedText := newStagedText,
              pinyinKeys := remainingKeys,
              focusedPinyinCandidate := none }, noFx)

/-- Model of `handlePanelDelete`: clear the focus if set; otherwise undo the last
selection if any; otherwise drop the last pending key, else the last
staged character, else ask the host to delete. -/
def handlePanelDelete (s : CompState) : CompState × Effects :=
  if s.focusedPinyinCandidate.isSome then
    ({ s with focusedPinyinCandidate := none }, noFx)
  else
    match s.selectionHistory.getLast? with
    | some last =>
        ({ s with selectionHistory := s.selectionHistory.dropLast,
                  stagedText := stagedSlice s.stagedText last.text.length,
                  pinyinKeys := last.keys ++ s.pinyinKeys,
                  focusedPinyinCandidate := none }, noFx)
    | none =>
        if 0 < s.pinyinKeys.length then
          ({ s with pinyinKeys := s.pinyinKeys.dropLast,
                    focusedPinyinCandidate := none }, noFx)
        else if 0 < s.stagedText.length then
          ({ s with stagedText := s.stagedText.dropLast }, noFx)
        else (s, ⟨[], true⟩)

/-- The two non-autopick branches of the space action: flush non-empty
staged text plus a space, or emit a literal space. -/
def spaceFallback (s : CompState) : CompState × Effects :=
  if 0 < s.stagedText.length then
    ({ s with stagedText := [] }, ⟨[s.stagedText ++ [spaceChar]], false⟩)
  else (s, ⟨[[spaceChar]], false⟩)

/-- The enter action's raw reading
`pinyinKeys.map(k => k.chars?.[0]).join('').toLowerCase()` (a missing first
letter contributes nothing to `join`). -/
def enterRaw (keys : List KeyGroup) : List Char :=
  (keys.filterMap (fun k => k.chars.bind List.head?)).map Char.toLower

/-- Model of `handleTap`: action keys (backspace, space with candidate auto-pick,
enter force-commit, one-hand toggle), then character groups (single
letter emitted directly, larger groups appended to the buffer with the
focus reset by the `useEffect`). -/
def handleTap (d : Dict) (g : KeyGroup) (s : CompState) : CompState × Effects :=
  if g.typ = KType.action then
    if g.act = some ActionK.backspace then
      handlePanelDelete s
    else if g.act = some ActionK.space then
      match candidatesOf d s with
      | c :: _ => if 0 < s.pinyinKeys.length then handleCandidateSelect c s else spaceFallback s
      | [] => spaceFallback s
    else if g.act = some ActionK.enter then
      if 0 < s.pinyinKeys.length ∨ 0 < s.stagedText.length then
        (clearComposition s, ⟨[s.stagedText ++ enterRaw s.pinyinKeys], false⟩)
      else (s, ⟨[[nlChar]], false⟩)
    else (s, noFx)
  else
    match g.chars with
    | none => (s, noFx)
    | some cs =>
        match cs with
        | [c] => (s, ⟨[[c]], false⟩)
        | _ =>
            ({ s with pinyinKeys := s.pinyinKeys ++ [g],
                      focusedPinyinCandidate := none }, noFx)

/-- Model of `handleSlideCommit`: an explicit letter overrides the composition
(staged text is flushed first), then the letter is emitted lowercased. -/
def handleSlideCommit (ch : Char) (s : CompState) : CompState × Effects :=
  if 0 < s.pinyinKeys.length ∨ 0 < s.stagedText.length then
    (clearComposition s,
     ⟨(if 0 < s.stagedText.length then [s.stagedText] else []) ++ [[ch.toLower]], false⟩)
  else (s, ⟨[[ch.toLower]], false⟩)

/-- One user-visible operation of the composition state machine.  A
candidate can only be selected if it is currently offered, and a syllable
can only be focused if it is in the syllable-picker row. -/
inductive Step (d : Dict) : CompState → CompState → Prop
  | tap (g : KeyGroup) (s : CompState) : Step d s (handleTap d g s).1
  | select (c : Candidate) (s : CompState) (hc : c ∈ candidatesOf d s) :
      Step d s (handleCandidateSelect c s).1
  | panelDelete (s : CompState) : Step d s (handlePanelDelete s).1
  | cancel (s : CompState) : Step d s (clearComposition s)
  | slide (ch : Char) (s : CompState) : Step d s (handleSlideCommit ch s).1
  | focusSet (seg : Segment) (s : CompState)
      (hseg : seg ∈ availablePinyinSegments d.valid s.pinyinKeys) :
      Step d s { s with focusedPinyinCandidate := some seg }
  | focusClear (s : CompState) : Step d s { s with focusedPinyinCandidate := none }
  | modeToggle (s : CompState) :
      Step d s { s with candidateMode :=
        if s.candidateMode = CMode.word then CMode.char else CMode.word }

/-- States reachable from the idle initial state. -/
inductive Reachable (d : Dict) : CompState → Prop
  | start : Reachable d initState
  | step {s t : CompState} : Reachable d s → Step d s t → Reachable d t

/-!  ## Concrete instances used by witnesses and counterexamples -/

/-- A letter group containing p (and a filler letter). -/
def gP : KeyGroup := ⟨some ['p', 'x'], none, KType.charGroup⟩

/-- A letter group containing u. -/
def gU : KeyGroup := ⟨some ['u', 'x'], none, KType.charGroup⟩

/-- A letter group containing r. -/
def gR : KeyGroup := ⟨some ['r', 'x'], none, KType.charGroup⟩

/-- A letter group containing i. -/
def gI : KeyGroup := ⟨some ['i', 'x'], none, KType.charGroup⟩

/-- The syllable pu. -/
def puStr : List Char := ['p', 'u']

/-- The syllable rui. -/
def ruiStr : List Char := ['r', 'u', 'i']

/-- The joined phrase key pu-apostrophe-rui. -/
def puRuiKey : List Char := puStr ++ apoChar :: ruiStr

/-- The phrase 普瑞. -/
def puRuiPhrase : List Char := ['普', '瑞']

/-- The §8 scenario dictionary: syllables pu and rui, pu→[普, 铺],
rui→[瑞], and the phrase table entry puʼrui→[普瑞]. -/
def demoDict : Dict :=
  ⟨[puStr, ruiStr],
   [(puStr, [['普'], ['铺']]), (ruiStr, [['瑞']])],
   [(puRuiKey, [puRuiPhrase])]⟩

/-- Five letter groups spelling p,u,r,u,i. -/
def demoKeys : List KeyGroup := [gP, gU, gR, gU, gI]

/-- A dictionary producing two equal-score candidates: single-letter
syllables a and e with one hanzi each. -/
def tieDict : Dict :=
  ⟨[['a'], ['e']],
   [(['a'], [['阿']]), (['e'], [['鹅']])],
   []⟩

/-- One ambiguous group containing a and e. -/
def gAE : KeyGroup := ⟨some ['a', 'e'], none, KType.charGroup⟩

/-- A dictionary whose only syllable matches nothing spelled with x/y. -/
def missDict : Dict := ⟨[['a']], [(['a'], [['阿']])], []⟩

/-- A group with letters x and y only. -/
def gXY : KeyGroup := ⟨some ['x', 'y'], none, KType.charGroup⟩

/-!  ## Properties of the matcher -/

theorem matchesGroups_length {target : List Char} {groups : List KeyGroup}
    (h : matchesGroups target groups = true) : target.length = groups.length := by
  by_contra hne
  simp [matchesGroups, hne] at h

theorem matchesAux_iff : ∀ (target : List Char) (groups : List KeyGroup),
    target.length = groups.length →
    (matchesAux target groups = true ↔
      ∀ pr ∈ target.zip groups, ∃ allowed, pr.2.chars = some allowed ∧
        allowed.contains pr.1.toLower = true) := by
  intro target
  induction target with
  | nil =>
      intro groups hlen
      have : groups = [] := List.length_eq_zero.mp hlen.symm
      subst this
      simp [matchesAux]
  | cons c cs ih =>
      intro groups hlen
      cases groups with
      | nil => simp at hlen
      | cons g gs =>
          have hlen2 : cs.length = gs.length := by simpa using hlen
          constructor
          · intro h
            simp only [matchesAux] at h
            cases hch : g.chars with
            | none => rw [hch] at h; exact absurd h (by simp)
            | some allowed =>
                rw [hch] at h
                simp only [Bool.and_eq_true] at h
                rcases h with ⟨h1, h2⟩
                intro pr hpr
                rcases List.mem_cons.mp hpr with rfl | hpr
                · exact ⟨allowed, hch, h1⟩
                · exact ((ih gs hlen2).mp h2) pr hpr
          · intro h
            simp only [matchesAux]
            rcases h (c, g) (by simp [List.zip_cons_cons]) with ⟨allowed, hch, hcont⟩
            rw [hch]
            simp only [Bool.and_eq_true]
            refine ⟨hcont, ?_⟩
            exact (ih gs hlen2).mpr (fun pr hpr => h pr (by simp [List.zip_cons_cons, hpr]))

/-!  ## Properties of the segmentation engine -/

theorem isDecompOf_sum (valid : List (List Char)) :
    ∀ (path : List Segment) (keys : List KeyGroup),
      isDecompOf valid path keys = true → (path.map Segment.len).sum = keys.length := by
  intro path
  induction path with
  | nil =>
      intro keys h
      simp only [isDecompOf] at h
      simp [List.isEmpty_iff.mp h]
  | cons s rest ih =>
      intro keys h
      simp only [isDecompOf, Bool.and_eq_true, decide_eq_true_eq] at h
      obtain ⟨⟨⟨⟨hlen, _⟩, _⟩, _⟩, hrest⟩ := h
      have := ih (keys.drop s.len) hrest
      simp only [List.length_drop] at this
      simp only [List.map_cons, List.sum_cons, this]
      omega

theorem mem_solveFuel (valid : List (List Char)) (hv : ∀ p ∈ valid, p ≠ []) :
    ∀ (n : Nat) (keys : List KeyGroup), keys.length ≤ n → ∀ path : List Segment,
      (path ∈ solveFuel valid n keys ↔ isDecompOf valid path keys = true) := by
  have nilcase : ∀ path : List Segment,
      (path ∈ ([[]] : List (List Segment)) ↔ isDecompOf valid path [] = true) := by
    intro path
    cases path with
    | nil => simp [isDecompOf]
    | cons s rest =>
        simp only [List.mem_singleton, isDecompOf]
        constructor
        · intro h; exact absurd h (by simp)
        · intro h
          exfalso
          simp only [Bool.and_eq_true, decide_eq_true_eq] at h
          obtain ⟨⟨⟨⟨_, _⟩, hcont⟩, hmatch⟩, _⟩ := h
          have hlen0 : s.str.length = 0 := by
            have := matchesGroups_length hmatch
            simpa using this
          exact hv s.str (by simpa using hcont) (List.length_eq_zero.mp hlen0)
  intro n
  induction n with
  | zero =>
      intro keys hk path
      have hkeys : keys = [] := List.length_eq_zero.mp (Nat.le_zero.mp hk)
      subst hkeys
      simpa [solveFuel] using nilcase path
  | succ n ih =>
      intro keys hk path
      cases keys with
      | nil => simpa [solveFuel] using nilcase path
      | cons k ks =>
          have hks : ks.length ≤ n := by simpa using hk
          cases path with
          | nil =>
              simp [solveFuel, List.mem_flatMap, List.mem_filter, List.mem_map, isDecompOf]
          | cons s rest =>
              constructor
              · intro h
                simp only [solveFuel] at h
                obtain ⟨len, hlenmem, h2⟩ := List.mem_flatMap.mp h
                obtain ⟨m, hmfil, h3⟩ := List.mem_flatMap.mp h2
                obtain ⟨suffix, hsuf, heq⟩ := List.mem_map.mp h3
                obtain ⟨hs, hrest⟩ : Segment.mk m len = s ∧ suffix = rest := by
                  constructor
                  · exact (List.cons.injEq _ _ _ _ ▸ heq).1
                  · exact (List.cons.injEq _ _ _ _ ▸ heq).2
                obtain ⟨hm, hfil⟩ := List.mem_filter.mp hmfil
                simp only [Bool.and_eq_true] at hfil
                rcases hfil with ⟨hbeq, hmatch⟩
                have hmlen : m.length = len := by simpa using hbeq
                obtain ⟨hge1, hle⟩ := (mem_chunkLens (k :: ks) len).mp hlenmem
                have hlelen : len ≤ (k :: ks).length := le_trans hle (Nat.min_le_right _ _)
                have hdrop : ((k :: ks).drop len).length ≤ n := by
                  simp only [List.length_drop]
                  simp only [List.length_cons]
                  omega
                subst hrest
                have hrest2 : isDecompOf valid suffix ((k :: ks).drop len) = true :=
                  (ih ((k :: ks).drop len) hdrop suffix).mp hsuf
                subst hs
                simp only [isDecompOf, Bool.and_eq_true, decide_eq_true_eq]
                refine ⟨⟨⟨⟨hlelen, ?_⟩, by simpa using hm⟩, hmatch⟩, hrest2⟩
                have : len ≤ 6 := le_trans hle (Nat.min_le_left _ _)
                omega
              · intro h
                simp only [isDecompOf, Bool.and_eq_true, decide_eq_true_eq] at h
                obtain ⟨⟨⟨⟨hlelen, h6⟩, hcont⟩, hmatch⟩, hrest⟩ := h
                have hmem : s.str ∈ valid := by simpa using hcont
                have hmlen : s.str.length = s.len := by
                  have := matchesGroups_length hmatch
                  rw [this, List.length_take]
                  exact Nat.min_eq_left hlelen
                have hge1 : 1 ≤ s.len := by
                  rcases Nat.eq_zero_or_pos s.len with h0 | h1
                  · exfalso
                    have : s.str = [] := List.length_eq_zero.mp (by omega)
                    exact hv s.str hmem this
                  · exact h1
                have hdrop : ((k :: ks).drop s.len).length ≤ n := by
                  simp only [List.length_drop, List.length_cons]
                  omega
                simp only [solveFuel]
                refine List.mem_flatMap.mpr ⟨s.len, ?_, ?_⟩
                · exact (mem_chunkLens (k :: ks) s.len).mpr ⟨hge1, by omega⟩
                · refine List.mem_flatMap.mpr ⟨s.str, ?_, ?_⟩
                  · refine List.mem_filter.mpr ⟨hmem, ?_⟩
                    simp only [Bool.and_eq_true]
                    exact ⟨by simpa using hmlen, hmatch⟩
                  · refine List.mem_map.mpr ⟨rest, ?_, ?_⟩
                    · exact (ih ((k :: ks).drop s.len) hdrop rest).mpr hrest
                    · cases s; rfl

/-!  ## Claims C1–C3 -/

/-- C1, counterexample at the empty buffer: the empty decomposition has every
property the claim demands (no segments, lengths summing to the buffer length
0), yet `segmentations` returns the empty result set for the empty buffer
(the early return on line 128), so it is not present. -/
theorem c1_empty_buffer_counterexample :
    isDecompOf demoDict.valid [] [] = true ∧
    [] ∉ segmentations demoDict.valid ([] : List KeyGroup) := by
  constructor
  · decide
  · decide

/-- C1 (amended to non-empty buffers): for every non-empty buffer and every
dictionary without an empty syllable, `segmentations` contains a path iff it
is a full-length decomposition: every segment's string is a dictionary
syllable of length at most 6 matching exactly the consecutive slice it
consumes, and the segment lengths sum to the buffer length; conversely every
such decomposition is returned. -/
theorem c1_segment_exactly_decompositions (valid : List (List Char))
    (keys : List KeyGroup) (hne : keys ≠ []) (hv : ∀ p ∈ valid, p ≠ [])
    (path : List Segment) :
    (path ∈ segmentations valid keys ↔ isDecompOf valid path keys = true) ∧
    (path ∈ segmentations valid keys → (path.map Segment.len).sum = keys.length) := by
  have hlen : ¬ keys.length = 0 := fun h => hne (List.length_eq_zero.mp h)
  have hmem : path ∈ segmentations valid keys ↔ isDecompOf valid path keys = true := by
    simp only [segmentations, if_neg hlen]
    exact mem_solveFuel valid hv keys.length keys le_rfl path
  exact ⟨hmem, fun h => isDecompOf_sum valid path keys (hmem.mp h)⟩

/-- C1 witness: the scenario buffer p,u,r,u,i with the scenario dictionary
and its unique decomposition pu,rui. -/
theorem c1_segment_exactly_decompositions_witness :
    demoKeys ≠ [] ∧ (∀ p ∈ demoDict.valid, p ≠ []) ∧
    ([⟨puStr, 2⟩, ⟨ruiStr, 3⟩] ∈ segmentations demoDict.valid demoKeys ↔
      isDecompOf demoDict.valid [⟨puStr, 2⟩, ⟨ruiStr, 3⟩] demoKeys = true) :=
  ⟨by decide, by decide,
   (c1_segment_exactly_decompositions demoDict.valid demoKeys (by decide) (by decide)
     [⟨puStr, 2⟩, ⟨ruiStr, 3⟩]).1⟩

/-- C2, counterexample: for the empty buffer `segmentations` returns the
empty result set, not the claimed one-element set containing the empty
decomposition. -/
theorem c2_empty_buffer_counterexample :
    segmentations demoDict.valid ([] : List KeyGroup) = [] ∧
    segmentations demoDict.valid ([] : List KeyGroup) ≠ [[]] := by
  constructor
  · decide
  · decide

/-- C2 (amended): for the empty buffer all three queries return empty lists:
`segmentations` returns the empty result set (not a singleton of the empty
decomposition), `candidates` is empty and `availablePinyinSegments` is
empty. -/
theorem c2_empty_buffer_results (d : Dict) (focus : Option Segment) (mode : CMode)
    (usage : List (List Char × Nat)) :
    segmentations d.valid [] = [] ∧
    candidates d [] focus mode usage = [] ∧
    availablePinyinSegments d.valid [] = [] := by
  refine ⟨rfl, rfl, rfl⟩

/-- C3, counterexample: the source lowercases only the syllable letter, not
the group letters, so a group whose letter table contains an upper-case
letter never matches, while the spec's both-sides-case-folded matcher
accepts it. -/
theorem c3_case_fold_counterexample :
    matchesGroups ['A'] [⟨some ['A'], none, KType.charGroup⟩] = false ∧
    matchesGroupsSpec ['A'] [⟨some ['A'], none, KType.charGroup⟩] = true := by
  constructor
  · decide
  · decide

/-- C3 (amended): `matchesGroups` is true iff the lengths agree and at every
position the syllable's letter, lowercased, is literally a member of the
group's letter table (the group's letters are compared as written, not
case-folded); a group without a letter table makes the match fail.  The
function is a pure function of its two arguments. -/
theorem c3_matcher_characterisation (target : List Char) (groups : List KeyGroup) :
    matchesGroups target groups = true ↔
      (target.length = groups.length ∧
       ∀ pr ∈ target.zip groups, ∃ allowed, pr.2.chars = some allowed ∧
         allowed.contains pr.1.toLower = true) := by
  constructor
  · intro h
    have hlen := matchesGroups_length h
    refine ⟨hlen, ?_⟩
    have h2 : matchesAux target groups = true := by
      simpa [matchesGroups, hlen] using h
    exact (matchesAux_iff target groups hlen).mp h2
  · rintro ⟨hlen, h⟩
    simp only [matchesGroups, if_pos hlen]
    exact (matchesAux_iff target groups hlen).mpr h

/-!  ## Claim C10 -/

theorem lexLe_cons (x y : Char) (xs ys : List Char) :
    lexLe (x :: xs) (y :: ys) = if x < y then true else if y < x then false else lexLe xs ys :=
  rfl

theorem lexLe_total : ∀ a b : List Char, lexLe a b = true ∨ lexLe b a = true := by
  intro a
  induction a with
  | nil => intro b; left; simp [lexLe]
  | cons x xs ih =>
      intro b
      cases b with
      | nil => right; simp [lexLe]
      | cons y ys =>
          rcases lt_trichotomy x y with hxy | hxy | hxy
          · left; rw [lexLe_cons, if_pos hxy]
          · subst hxy
            rcases ih ys with h | h
            · left
              rw [lexLe_cons, if_neg (lt_irrefl x), if_neg (lt_irrefl x)]
              exact h
            · right
              rw [lexLe_cons, if_neg (lt_irrefl x), if_neg (lt_irrefl x)]
              exact h
          · right; rw [lexLe_cons, if_pos hxy]

theorem lexLe_trans : ∀ a b c : List Char,
    lexLe a b = true → lexLe b c = true → lexLe a c = true := by
  intro a
  induction a with
  | nil => intro b c _ _; simp [lexLe]
  | cons x xs ih =>
      intro b c hab hbc
      cases b with
      | nil => simp [lexLe] at hab
      | cons y ys =>
          cases c with
          | nil => simp [lexLe] at hbc
          | cons z zs =>
              rcases lt_trichotomy x y with hxy | hxy | hxy
              · rcases lt_trichotomy y z with hyz | hyz | hyz
                · rw [lexLe_cons, if_pos (lt_trans hxy hyz)]
                · subst hyz
                  rw [lexLe_cons, if_pos hxy]
                · exfalso
                  rw [lexLe_cons, if_neg (lt_asymm hyz), if_pos hyz] at hbc
                  exact absurd hbc (by simp)
              · subst hxy
                rcases lt_trichotomy x z with hxz | hxz | hxz
                · rw [lexLe_cons, if_pos hxz]
                · subst hxz
                  rw [lexLe_cons, if_neg (lt_irrefl x), if_neg (lt_irrefl x)] at hab hbc ⊢
                  exact ih ys zs hab hbc
                · exfalso
                  rw [lexLe_cons, if_neg (lt_asymm hxz), if_pos hxz] at hbc
                  exact absurd hbc (by simp)
              · exfalso
                rw [lexLe_cons, if_neg (lt_asymm hxy), if_pos hxy] at hab
                exact absurd hab (by simp)

theorem segLeB_total : ∀ a b : Segment, segLeB a b = true ∨ segLeB b a = true := by
  intro a b
  by_cases h1 : a.len < b.len
  · left; simp [segLeB, h1]
  · by_cases h2 : b.len < a.len
    · right; simp [segLeB, h2]
    · rcases lexLe_total a.str b.str with h | h
      · left; simp [segLeB, h1, h2, h]
      · right; simp [segLeB, h1, h2, h]

theorem segLeB_trans : ∀ a b c : Segment,
    segLeB a b = true → segLeB b c = true → segLeB a c = true := by
  intro a b c hab hbc
  simp only [segLeB] at hab hbc ⊢
  by_cases h1 : a.len < b.len
  · by_cases h2 : b.len < c.len
    · simp [Nat.lt_trans h1 h2]
    · by_cases h3 : c.len < b.len
      · rw [if_neg h2, if_pos h3] at hbc
        exact absurd hbc (by simp)
      · have : b.len = c.len := le_antisymm (not_lt.mp h3) (not_lt.mp h2)
        simp [this ▸ h1]
  · by_cases h4 : b.len < a.len
    · rw [if_neg h1, if_pos h4] at hab
      exact absurd hab (by simp)
    · have hab2 : a.len = b.len := le_antisymm (not_lt.mp h4) (not_lt.mp h1)
      rw [if_neg h1, if_neg h4] at hab
      by_cases h2 : b.len < c.len
      · simp [hab2 ▸ h2]
      · by_cases h3 : c.len < b.len
        · rw [if_neg h2, if_pos h3] at hbc
          exact absurd hbc (by simp)
        · have hbc2 : b.len = c.len := le_antisymm (not_lt.mp h3) (not_lt.mp h2)
          rw [if_neg h2, if_neg h3] at hbc
          have hac : ¬ a.len < c.len := by omega
          have hca : ¬ c.len < a.len := by omega
          rw [if_neg hac, if_neg hca]
          exact lexLe_trans _ _ _ hab hbc

theorem mem_prefixSegments (valid : List (List Char)) (keys : List KeyGroup)
    (sgm : Segment) :
    sgm ∈ prefixSegments valid keys ↔
      (1 ≤ sgm.len ∧ sgm.len ≤ min 6 keys.length ∧ sgm.str ∈ valid ∧
       sgm.str.length = sgm.len ∧ matchesGroups sgm.str (keys.take sgm.len) = true) := by
  constructor
  · intro h
    obtain ⟨len, hlenmem, h2⟩ := List.mem_flatMap.mp h
    obtain ⟨m, hmfil, heq⟩ := List.mem_map.mp h2
    obtain ⟨hm, hfil⟩ := List.mem_filter.mp hmfil
    simp only [Bool.and_eq_true] at hfil
    rcases hfil with ⟨hbeq, hmatch⟩
    obtain ⟨hge1, hle⟩ := (mem_chunkLens keys len).mp hlenmem
    have h1 : sgm.str = m := by rw [← heq]
    have h2' : sgm.len = len := by rw [← heq]
    subst h1; subst h2'
    exact ⟨hge1, hle, hm, by simpa using hbeq, hmatch⟩
  · rintro ⟨hge1, hle, hm, hlen, hmatch⟩
    refine List.mem_flatMap.mpr ⟨sgm.len, (mem_chunkLens keys sgm.len).mpr ⟨hge1, hle⟩, ?_⟩
    refine List.mem_map.mpr ⟨sgm.str, ?_, by cases sgm; rfl⟩
    refine List.mem_filter.mpr ⟨hm, ?_⟩
    simp only [Bool.and_eq_true]
    exact ⟨by simpa using hlen, hmatch⟩

/-- C10: for every non-empty buffer, `availablePinyinSegments` is sorted by
consumed length ascending with ties ordered lexicographically (the model of
`localeCompare` on the ASCII syllables), is a permutation of the unsorted
prefix enumeration, and contains exactly the dictionary syllables of length
1..min(6, buffer length) matching the buffer's prefix chunk of that
length. -/
theorem c10_available_segments_sorted (valid : List (List Char))
    (keys : List KeyGroup) (hne : keys ≠ []) :
    (availablePinyinSegments valid keys).Pairwise
      (fun a b => a.len < b.len ∨ (a.len = b.len ∧ lexLe a.str b.str = true)) ∧
    (availablePinyinSegments valid keys).Perm (prefixSegments valid keys) ∧
    (∀ sgm : Segment, sgm ∈ availablePinyinSegments valid keys ↔
      (1 ≤ sgm.len ∧ sgm.len ≤ min 6 keys.length ∧ sgm.str ∈ valid ∧
       sgm.str.length = sgm.len ∧ matchesGroups sgm.str (keys.take sgm.len) = true)) := by
  have hlen : ¬ keys.length = 0 := fun h => hne (List.length_eq_zero.mp h)
  have hdef : availablePinyinSegments valid keys = isortLe segLeB (prefixSegments valid keys) := by
    simp [availablePinyinSegments, hlen]
  have hperm : (availablePinyinSegments valid keys).Perm (prefixSegments valid keys) := by
    rw [hdef]; exact isortLe_perm segLeB _
  refine ⟨?_, hperm, ?_⟩
  · have hpw := pairwise_isortLe segLeB segLeB_total segLeB_trans (prefixSegments valid keys)
    rw [hdef]
    refine hpw.imp ?_
    intro a b h
    simp only [segLeB] at h
    by_cases h1 : a.len < b.len
    · exact Or.inl h1
    · by_cases h2 : b.len < a.len
      · rw [if_neg h1, if_pos h2] at h
        exact absurd h (by simp)
      · rw [if_neg h1, if_neg h2] at h
        exact Or.inr ⟨by omega, h⟩
  · intro sgm
    rw [hperm.mem_iff]
    exact mem_prefixSegments valid keys sgm

/-- C10 witness: the sortedness and permutation facts at the scenario
dictionary and buffer. -/
theorem c10_available_segments_sorted_witness :
    (availablePinyinSegments demoDict.valid demoKeys).Pairwise
      (fun a b => a.len < b.len ∨ (a.len = b.len ∧ lexLe a.str b.str = true)) ∧
    (availablePinyinSegments demoDict.valid demoKeys).Perm
      (prefixSegments demoDict.valid demoKeys) :=
  ⟨(c10_available_segments_sorted demoDict.valid demoKeys (by decide)).1,
   (c10_available_segments_sorted demoDict.valid demoKeys (by decide)).2.1⟩

/-!  ## Claims C4, C5: ranker structure -/

/-- The first emission carrying a given `(value, consumedLen)` pair. -/
def firstWithKey (k : List Char × Nat) (es : List Emission) : Option Emission :=
  es.find? (fun e => decide (ePairKey e = k))

theorem mkCandidate_pairKey (mode : CMode) (usage : List (List Char × Nat)) (e : Emission) :
    pairKey (mkCandidate mode usage e) = ePairKey e := rfl

theorem addEmissions_first (mode : CMode) (usage : List (List Char × Nat)) :
    ∀ (es : List Emission) (seen : List (List Char × Nat)) (c : Candidate),
      c ∈ addEmissions mode usage es seen →
      pairKey c ∉ seen ∧
      ∃ e, firstWithKey (pairKey c) es = some e ∧ c = mkCandidate mode usage e := by
  intro es
  induction es with
  | nil => intro seen c h; simp [addEmissions] at h
  | cons e es ih =>
      intro seen c h
      simp only [addEmissions] at h
      by_cases hseen : ePairKey e ∈ seen
      · rw [if_pos hseen] at h
        obtain ⟨hnot, e2, hfind, hc⟩ := ih seen c h
        have hne : ¬ (ePairKey e = pairKey c) := fun heq => hnot (heq ▸ hseen)
        refine ⟨hnot, e2, ?_, hc⟩
        rw [firstWithKey, List.find?_cons_of_neg _ (by simp [hne])]
        exact hfind
      · rw [if_neg hseen] at h
        rcases List.mem_cons.mp h with rfl | h2
        · refine ⟨by rw [mkCandidate_pairKey]; exact hseen, e, ?_, rfl⟩
          rw [firstWithKey, List.find?_cons_of_pos _ (by simp [mkCandidate_pairKey])]
        · obtain ⟨hnot, e2, hfind, hc⟩ := ih _ c h2
          have h1 : ¬ (ePairKey e = pairKey c) := fun heq => hnot (by simp [heq])
          have h2' : pairKey c ∉ seen := fun hm => hnot (by simp [hm])
          refine ⟨h2', e2, ?_, hc⟩
          rw [firstWithKey, List.find?_cons_of_neg _ (by simp [h1])]
          exact hfind

theorem addEmissions_pairwise (mode : CMode) (usage : List (List Char × Nat)) :
    ∀ (es : List Emission) (seen : List (List Char × Nat)),
      (addEmissions mode usage es seen).Pairwise (fun a b => pairKey a ≠ pairKey b) := by
  intro es
  induction es with
  | nil => intro seen; simp [addEmissions]
  | cons e es ih =>
      intro seen
      simp only [addEmissions]
      by_cases hseen : ePairKey e ∈ seen
      · rw [if_pos hseen]; exact ih seen
      · rw [if_neg hseen]
        refine List.pairwise_cons.mpr ⟨?_, ih _⟩
        intro c hc heq
        have hnot := (addEmissions_first mode usage es _ c hc).1
        apply hnot
        rw [← heq, mkCandidate_pairKey]
        exact List.mem_cons_self _ _

/-- C4, counterexample: one ambiguous a/e key with one hanzi per syllable
yields two candidates of equal score (55 points = 550 tenths), so the list
is NOT sorted strictly descending by score. -/
theorem c4_strict_descending_counterexample :
    (candidates tieDict [gAE] none CMode.word []).map Candidate.score = [550, 550] ∧
    ¬ (candidates tieDict [gAE] none CMode.word []).Pairwise
        (fun a b => b.score < a.score) := by
  constructor
  · decide
  · decide

/-- C4 (amended: descending, not strictly): for every input the candidate
list is sorted in non-increasing score order (ties are possible and are kept
in generation order by the stable sort), contains at most one candidate per
(value, consumedLen) pair, and every candidate is exactly the scored image
of the FIRST `addResult` emission with its pair — later identical pairs are
dropped, never merged or boosted. -/
theorem c4_ranker_sorted_dedup (d : Dict) (keys : List KeyGroup)
    (focus : Option Segment) (mode : CMode) (usage : List (List Char × Nat)) :
    (candidates d keys focus mode usage).Pairwise (fun a b => b.score ≤ a.score) ∧
    (candidates d keys focus mode usage).Pairwise (fun a b => pairKey a ≠ pairKey b) ∧
    (∀ c ∈ candidates d keys focus mode usage,
      (firstWithKey (pairKey c) (emissionsOf d keys focus)).map
        (mkCandidate mode usage) = some c) := by
  by_cases hk : keys.length = 0
  · simp [candidates, hk]
  · simp only [candidates, if_neg hk]
    have hperm := isortLe_perm (fun a b : Candidate => decide (b.score ≤ a.score))
      (addEmissions mode usage (emissionsOf d keys focus) [])
    refine ⟨?_, ?_, ?_⟩
    · have := pairwise_isortLe (fun a b : Candidate => decide (b.score ≤ a.score))
        (fun a b => by
          rcases le_total b.score a.score with h | h
          · left; simpa using h
          · right; simpa using h)
        (fun a b c h1 h2 => by
          simp only [decide_eq_true_eq] at h1 h2 ⊢
          exact le_trans h2 h1)
        (addEmissions mode usage (emissionsOf d keys focus) [])
      exact this.imp (fun h => by simpa using h)
    · have hpw := addEmissions_pairwise mode usage (emissionsOf d keys focus) []
      exact (hperm.pairwise_iff (fun h => Ne.symm h)).mpr hpw
    · intro c hc
      have hc2 : c ∈ addEmissions mode usage (emissionsOf d keys focus) [] :=
        hperm.mem_iff.mp hc
      obtain ⟨_, e, hfind, hmk⟩ := addEmissions_first mode usage _ [] c hc2
      rw [hfind]
      simp [hmk]

/-- C4 witness: the first tie candidate is the scored image of the first
emission with its pair. -/
theorem c4_ranker_sorted_dedup_witness :
    (⟨['阿'], ['阿'], 550, 1, CType.char⟩ : Candidate) ∈
      candidates tieDict [gAE] none CMode.word [] ∧
    (firstWithKey (['阿'], 1) (emissionsOf tieDict [gAE] none)).map
      (mkCandidate CMode.word []) = some ⟨['阿'], ['阿'], 550, 1, CType.char⟩ :=
  ⟨by decide,
   (c4_ranker_sorted_dedup tieDict [gAE] none CMode.word []).2.2
     ⟨['阿'], ['阿'], 550, 1, CType.char⟩ (by decide)⟩

/-- C5: for every non-empty buffer with no valid segmentation the
default-mode (unfocused) ranker produces exactly one candidate: the raw
fallback, whose value and display are the concatenation of each group's
first listed letter, whose consumedLen is the full buffer length, whose kind
is raw, and whose score is the uniform adjustment of BASE 0 (no mode bonus
applies to the raw kind, so only the length and frequency bonuses remain). -/
theorem c5_raw_fallback (d : Dict) (keys : List KeyGroup) (mode : CMode)
    (usage : List (List Char × Nat)) (hne : keys ≠ [])
    (hseg : segmentations d.valid keys = []) :
    candidates d keys none mode usage =
      [mkCandidate mode usage ⟨rawOf keys, rawOf keys, 0, keys.length, CType.raw, 0⟩] ∧
    (mkCandidate mode usage ⟨rawOf keys, rawOf keys, 0, keys.length, CType.raw, 0⟩).value
      = rawOf keys ∧
    (mkCandidate mode usage ⟨rawOf keys, rawOf keys, 0, keys.length, CType.raw, 0⟩).display
      = rawOf keys ∧
    (mkCandidate mode usage ⟨rawOf keys, rawOf keys, 0, keys.length, CType.raw, 0⟩).consumedLen
      = keys.length ∧
    (mkCandidate mode usage ⟨rawOf keys, rawOf keys, 0, keys.length, CType.raw, 0⟩).type
      = CType.raw ∧
    (mkCandidate mode usage ⟨rawOf keys, rawOf keys, 0, keys.length, CType.raw, 0⟩).score
      = (rawOf keys).length * 50 + (getFreq usage (rawOf keys)) * 100 := by
  have hlen : ¬ keys.length = 0 := fun h => hne (List.length_eq_zero.mp h)
  refine ⟨?_, rfl, rfl, rfl, rfl, ?_⟩
  · simp only [candidates, if_neg hlen, emissionsOf, hseg]
    simp [addEmissions, sortCands, isortLe, insertLe]
  · simp only [mkCandidate]
    cases mode <;> simp

/-- C5 witness: the unmatchable x/y buffer under the a-only dictionary. -/
theorem c5_raw_fallback_witness :
    segmentations missDict.valid [gXY] = [] ∧
    candidates missDict [gXY] none CMode.word [] =
      [⟨['x'], ['x'], 50, 1, CType.raw⟩] := by
  refine ⟨by decide, ?_⟩
  have h := (c5_raw_fallback missDict [gXY] CMode.word [] (by decide) (by decide)).1
  rw [h]
  decide

/-!  ## Claim C7: the puʼrui phrase scenario -/

theorem addEmissions_exists_key (mode : CMode) (usage : List (List Char × Nat)) :
    ∀ (es : List Emission) (seen : List (List Char × Nat)) (k : List Char × Nat),
      (∃ e ∈ es, ePairKey e = k) → k ∉ seen →
      ∃ c ∈ addEmissions mode usage es seen, pairKey c = k := by
  intro es
  induction es with
  | nil =>
      intro seen k h _
      obtain ⟨e, he, _⟩ := h
      exact absurd he (by simp)
  | cons e es ih =>
      intro seen k h hk
      simp only [addEmissions]
      by_cases hseen : ePairKey e ∈ seen
      · rw [if_pos hseen]
        obtain ⟨e2, he2, hkey⟩ := h
        rcases List.mem_cons.mp he2 with rfl | he3
        · exact absurd (hkey ▸ hseen) hk
        · exact ih seen k ⟨e2, he3, hkey⟩ hk
      · rw [if_neg hseen]
        by_cases hek : ePairKey e = k
        · exact ⟨mkCandidate mode usage e, List.mem_cons_self _ _,
            (mkCandidate_pairKey mode usage e).trans hek⟩
        · obtain ⟨e2, he2, hkey⟩ := h
          rcases List.mem_cons.mp he2 with rfl | he3
          · exact absurd hkey hek
          · obtain ⟨c, hc, hck⟩ := ih (ePairKey e :: seen) k ⟨e2, he3, hkey⟩
              (by
                intro hmem
                rcases List.mem_cons.mp hmem with heq | hmem2
                · exact hek heq.symm
                · exact hk hmem2)
            exact ⟨c, List.mem_cons_of_mem _ hc, hck⟩

theorem withIdx_exists {α : Type} (x : α) :
    ∀ (l : List α) (n : Nat), x ∈ l → ∃ i, (i, x) ∈ withIdx n l := by
  intro l
  induction l with
  | nil => intro n h; exact absurd h (by simp)
  | cons a as ih =>
      intro n h
      rcases List.mem_cons.mp h with rfl | h2
      · exact ⟨n, List.mem_cons_self _ _⟩
      · obtain ⟨i, hi⟩ := ih (n + 1) h2
        exact ⟨i, List.mem_cons_of_mem _ hi⟩

/-- C7, counterexample: the §8 scenario itself satisfies the claim's
hypotheses (the buffer's groups segment as pu,rui and the phrase table maps
puʼrui to 普瑞), yet no candidate carries 普瑞 with consumedLen = 2 —
`consumedLen` counts consumed key groups (5 here), not syllables. -/
theorem c7_consumedlen_counterexample :
    segmentations demoDict.valid demoKeys = [[⟨puStr, 2⟩, ⟨ruiStr, 3⟩]] ∧
    lookupL puRuiKey demoDict.phrases = some [puRuiPhrase] ∧
    (candidates demoDict demoKeys none CMode.word []).filter
      (fun c => decide (c.value = puRuiPhrase) && decide (c.consumedLen = 2)) = [] := by
  refine ⟨by decide, by decide, by decide⟩

/-- C7 (amended): whenever a decomposition path starts with the syllables
pu,rui consuming a and b key groups and the phrase table lists 普瑞 under
the key puʼrui, the candidate list contains 普瑞 with consumedLen = a + b
(the number of consumed KEY GROUPS, the full five-group buffer in the
letter-per-group scenario — not 2); and in the §8 scenario (word mode, no
prior usage) that phrase candidate scores strictly higher than every
single-character candidate (each of which consumes only the first
syllable's groups). -/
theorem c7_phrase_candidate (d : Dict) (keys : List KeyGroup) (a b : Nat)
    (rest : List Segment) (mode : CMode) (usage : List (List Char × Nat))
    (phl : List (List Char))
    (hpath : (⟨puStr, a⟩ :: ⟨ruiStr, b⟩ :: rest) ∈ segmentations d.valid keys)
    (hlook : lookupL puRuiKey d.phrases = some phl)
    (hmem : puRuiPhrase ∈ phl) :
    (∃ c ∈ candidates d keys none mode usage,
       c.value = puRuiPhrase ∧ c.consumedLen = a + b) ∧
    (∀ c ∈ candidates demoDict demoKeys none CMode.word [],
       c.value = puRuiPhrase →
         c.consumedLen = 5 ∧ c.type = CType.phrase ∧
         ∀ c2 ∈ candidates demoDict demoKeys none CMode.word [],
           c2.type = CType.char → c2.score < c.score) := by
  constructor
  · by_cases hk : keys.length = 0
    · rw [segmentations, if_pos hk] at hpath
      exact absurd hpath (by simp)
    · have hsegs : segmentations d.valid keys ≠ [] := by
        intro h
        rw [h] at hpath
        exact absurd hpath (by simp)
      obtain ⟨i, hi⟩ := withIdx_exists puRuiPhrase phl 0 hmem
      have hsteps : accumSteps (⟨puStr, a⟩ :: ⟨ruiStr, b⟩ :: rest) =
          (puStr, a) :: (puStr ++ apoChar :: ruiStr, a + b) ::
            accumStepsAux (puStr ++ apoChar :: ruiStr) (a + b) (rest.take 2) := rfl
      have hstep : (puRuiKey, a + b) ∈ accumSteps (⟨puStr, a⟩ :: ⟨ruiStr, b⟩ :: rest) := by
        rw [hsteps]
        exact List.mem_cons_of_mem _ (List.mem_cons_self _ _)
      have hemem : (⟨puRuiPhrase, puRuiPhrase, 1500, a + b, CType.phrase, (i : Int)⟩ : Emission) ∈
          emissionsOf d keys none := by
        simp only [emissionsOf]
        rw [if_pos (by simpa using hsegs)]
        refine List.mem_flatMap.mpr ⟨⟨puStr, a⟩ :: ⟨ruiStr, b⟩ :: rest, hpath, ?_⟩
        simp only [pathEmissions]
        refine List.mem_append_left _ ?_
        refine List.mem_flatMap.mpr ⟨(puRuiKey, a + b), hstep, ?_⟩
        simp only [phraseEmissionsAt, hlook]
        refine List.mem_map.mpr ⟨(i, puRuiPhrase), hi, rfl⟩
      have hex : ∃ c ∈ addEmissions mode usage (emissionsOf d keys none) [],
          pairKey c = (puRuiPhrase, a + b) := by
        refine addEmissions_exists_key mode usage _ [] _ ?_ (by simp)
        exact ⟨_, hemem, rfl⟩
      obtain ⟨c, hc, hck⟩ := hex
      refine ⟨c, ?_, ?_, ?_⟩
      · simp only [candidates, if_neg hk]
        exact (isortLe_perm _ _).mem_iff.mpr hc
      · exact congrArg Prod.fst hck
      · exact congrArg Prod.snd hck
  · decide

/-- C7 witness: the §8 scenario inputs discharge the hypotheses, giving the
普瑞 candidate with consumedLen 2 + 3 = 5. -/
theorem c7_phrase_candidate_witness :
    ([⟨puStr, 2⟩, ⟨ruiStr, 3⟩] : List Segment) ∈ segmentations demoDict.valid demoKeys ∧
    (∃ c ∈ candidates demoDict demoKeys none CMode.word [],
       c.value = puRuiPhrase ∧ c.consumedLen = 2 + 3) :=
  ⟨by decide,
   (c7_phrase_candidate demoDict demoKeys 2 3 [] CMode.word [] [puRuiPhrase]
     (by decide) (by decide) (by decide)).1⟩

/-!  ## Claim C6: single-letter keys -/

/-- A composing state: one pending ambiguous a/e key. -/
def composingAE : CompState := ⟨[gAE], [], [], none, CMode.word, []⟩

/-- A single-letter punctuation key. -/
def bangKey : KeyGroup := ⟨some ['!'], none, KType.charGroup⟩

/-- C6, counterexample: in a Composing state (non-empty pending buffer with
a non-empty candidate list) a single-letter key is emitted directly with the
state unchanged; it is NOT routed to candidate auto-pick — picking the first
candidate would have produced a different state. -/
theorem c6_composing_counterexample :
    composingAE.pinyinKeys ≠ [] ∧
    handleTap tieDict bangKey composingAE = (composingAE, ⟨[['!']], false⟩) ∧
    (candidatesOf tieDict composingAE).head? =
      some ⟨['阿'], ['阿'], 550, 1, CType.char⟩ ∧
    (handleCandidateSelect ⟨['阿'], ['阿'], 550, 1, CType.char⟩ composingAE).1 ≠
      composingAE := by
  refine ⟨by decide, by decide, by decide, by decide⟩

/-- C6 (amended): a single-letter char-group key is ALWAYS emitted directly
to the external sink with the composition state unchanged — in Idle and
equally while Composing.  It is never routed to candidate auto-pick (only
the space action auto-picks the best candidate). -/
theorem c6_single_letter_emits_directly (d : Dict) (s : CompState) (g : KeyGroup)
    (c : Char) (ht : g.typ ≠ KType.action) (hc : g.chars = some [c]) :
    handleTap d g s = (s, ⟨[[c]], false⟩) := by
  simp only [handleTap, if_neg ht, hc]

/-- C6 witness: the composing state, discharged concretely. -/
theorem c6_single_letter_emits_directly_witness :
    composingAE.pinyinKeys ≠ [] ∧
    handleTap tieDict bangKey composingAE = (composingAE, ⟨[['!']], false⟩) :=
  ⟨by decide,
   c6_single_letter_emits_directly tieDict composingAE bangKey '!' (by decide) rfl⟩

/-!  ## Structural facts about generated candidates (used by C8/C9) -/

theorem withIdx_mem {α : Type} :
    ∀ (l : List α) (n : Nat) (p : Nat × α), p ∈ withIdx n l → p.2 ∈ l := by
  intro l
  induction l with
  | nil => intro n p h; simp [withIdx] at h
  | cons a as ih =>
      intro n p h
      rcases List.mem_cons.mp h with rfl | h2
      · exact List.mem_cons_self _ _
      · exact List.mem_cons_of_mem _ (ih (n + 1) p h2)

theorem lookupL_mem {α : Type} (k : List Char) :
    ∀ (l : List (List Char × α)) (v : α), lookupL k l = some v →
      ∃ kv ∈ l, kv.1 = k ∧ kv.2 = v := by
  intro l
  induction l with
  | nil => intro v h; simp [lookupL] at h
  | cons kv rest ih =>
      intro v h
      simp only [lookupL] at h
      by_cases hk : kv.1 = k
      · rw [if_pos hk] at h
        exact ⟨kv, List.mem_cons_self _ _, hk, Option.some.inj h⟩
      · rw [if_neg hk] at h
        obtain ⟨kv2, hm, hk2, hv2⟩ := ih v h
        exact ⟨kv2, List.mem_cons_of_mem _ hm, hk2, hv2⟩

theorem solveFuel_len_pos (valid : List (List Char)) :
    ∀ (n : Nat) (keys : List KeyGroup) (path : List Segment),
      path ∈ solveFuel valid n keys → ∀ sgm ∈ path, 1 ≤ sgm.len := by
  intro n
  induction n with
  | zero =>
      intro keys path h sgm hs
      cases keys with
      | nil =>
          simp only [solveFuel, List.mem_singleton] at h
          subst h
          simp at hs
      | cons k ks => simp [solveFuel] at h
  | succ n ih =>
      intro keys path h sgm hs
      cases keys with
      | nil =>
          simp only [solveFuel, List.mem_singleton] at h
          subst h
          simp at hs
      | cons k ks =>
          simp only [solveFuel] at h
          obtain ⟨len, hlen, h2⟩ := List.mem_flatMap.mp h
          obtain ⟨m, _, h3⟩ := List.mem_flatMap.mp h2
          obtain ⟨suffix, hsuf, heq⟩ := List.mem_map.mp h3
          rw [← heq] at hs
          rcases List.mem_cons.mp hs with rfl | hs2
          · exact ((mem_chunkLens _ len).mp hlen).1
          · exact ih _ suffix hsuf sgm hs2

theorem segmentations_len_pos (valid : List (List Char)) (keys : List KeyGroup)
    (path : List Segment) (h : path ∈ segmentations valid keys) :
    ∀ sgm ∈ path, 1 ≤ sgm.len := by
  by_cases hk : keys.length = 0
  · rw [segmentations, if_pos hk] at h
    simp at h
  · rw [segmentations, if_neg hk] at h
    exact solveFuel_len_pos valid keys.length keys path h

theorem accumStepsAux_len_ge (q : Nat) :
    ∀ (segs : List Segment) (acc : List Char) (n : Nat), q ≤ n →
      ∀ st ∈ accumStepsAux acc n segs, q ≤ st.2 := by
  intro segs
  induction segs with
  | nil => intro acc n _ st h; simp [accumStepsAux] at h
  | cons s rest ih =>
      intro acc n hq st h
      rcases List.mem_cons.mp h with rfl | h2
      · simp only []
        omega
      · exact ih _ (n + s.len) (by omega) st h2

theorem accumSteps_len_pos (path : List Segment) (hpos : ∀ sgm ∈ path, 1 ≤ sgm.len) :
    ∀ st ∈ accumSteps path, 1 ≤ st.2 := by
  intro st h
  simp only [accumSteps] at h
  cases htake : path.take 4 with
  | nil => rw [htake] at h; simp at h
  | cons s rest2 =>
      rw [htake] at h
      have hsmem : s ∈ path := List.take_subset 4 path (htake ▸ List.mem_cons_self s rest2)
      have hslen : 1 ≤ s.len := hpos s hsmem
      rcases List.mem_cons.mp h with rfl | h2
      · exact hslen
      · exact accumStepsAux_len_ge 1 rest2 s.str s.len hslen st h2

theorem emissionsOf_consumedLen_pos (d : Dict) (keys : List KeyGroup)
    (focus : Option Segment) (hk : keys ≠ [])
    (hfoc : ∀ seg, focus = some seg → 1 ≤ seg.len) :
    ∀ e ∈ emissionsOf d keys focus, 1 ≤ e.consumedLen := by
  intro e he
  cases focus with
  | some fc =>
      simp only [emissionsOf] at he
      cases hl : lookupL fc.str d.toHanzi with
      | none => rw [hl] at he; simp at he
      | some hs =>
          rw [hl] at he
          obtain ⟨p, _, heq⟩ := List.mem_map.mp he
          rw [← heq]
          exact hfoc fc rfl
  | none =>
      simp only [emissionsOf] at he
      by_cases hs : (segmentations d.valid keys).length ≠ 0
      · rw [if_pos hs] at he
        obtain ⟨path, hpath, he2⟩ := List.mem_flatMap.mp he
        have hpos := segmentations_len_pos d.valid keys path hpath
        cases path with
        | nil => simp [pathEmissions] at he2
        | cons firstSeg rest =>
            simp only [pathEmissions] at he2
            rcases List.mem_append.mp he2 with hph | hch
            · obtain ⟨st, hst, he3⟩ := List.mem_flatMap.mp hph
              have hst2 := accumSteps_len_pos _ hpos st hst
              simp only [phraseEmissionsAt] at he3
              cases hl : lookupL st.1 d.phrases with
              | none => rw [hl] at he3; simp at he3
              | some phl =>
                  rw [hl] at he3
                  obtain ⟨p, _, heq⟩ := List.mem_map.mp he3
                  rw [← heq]
                  exact hst2
            · cases hl : lookupL firstSeg.str d.toHanzi with
              | none => rw [hl] at hch; simp at hch
              | some hzs =>
                  rw [hl] at hch
                  obtain ⟨p, _, heq⟩ := List.mem_map.mp hch
                  rw [← heq]
                  exact hpos firstSeg (List.mem_cons_self _ _)
      · rw [if_neg hs] at he
        rcases List.mem_singleton.mp he with rfl
        have : keys.length ≠ 0 := fun h => hk (List.length_eq_zero.mp h)
        simpa using Nat.one_le_iff_ne_zero.mpr this

/-- Modelled from the spec: the dictionary data itself (constants.ts with
VALID_PINYINS, PINYIN_TO_HANZI and COMMON_PHRASES) is not among the sources;
§6 describes it as a set of valid syllable strings, a syllable → ordered
list of character strings, and a joined-key → ordered list of phrase
strings.  Syllables, characters and phrases are non-empty strings. -/
def DictWF (d : Dict) : Prop :=
  (∀ p ∈ d.valid, p ≠ []) ∧
  (∀ kv ∈ d.toHanzi, ∀ h ∈ kv.2, h ≠ []) ∧
  (∀ kv ∈ d.phrases, ∀ ph ∈ kv.2, ph ≠ [])

theorem emissionsOf_value_ne (d : Dict) (keys : List KeyGroup)
    (focus : Option Segment) (hk : keys ≠ []) (hwf : DictWF d) :
    ∀ e ∈ emissionsOf d keys focus, e.value ≠ [] := by
  intro e he
  obtain ⟨_, hwfh, hwfp⟩ := hwf
  cases focus with
  | some fc =>
      simp only [emissionsOf] at he
      cases hl : lookupL fc.str d.toHanzi with
      | none => rw [hl] at he; simp at he
      | some hs =>
          rw [hl] at he
          obtain ⟨p, hp, heq⟩ := List.mem_map.mp he
          obtain ⟨kv, hkv, _, hv⟩ := lookupL_mem fc.str d.toHanzi hs hl
          rw [← heq]
          exact hwfh kv hkv p.2 (hv ▸ withIdx_mem hs 0 p hp)
  | none =>
      simp only [emissionsOf] at he
      by_cases hs : (segmentations d.valid keys).length ≠ 0
      · rw [if_pos hs] at he
        obtain ⟨path, _, he2⟩ := List.mem_flatMap.mp he
        cases path with
        | nil => simp [pathEmissions] at he2
        | cons firstSeg rest =>
            simp only [pathEmissions] at he2
            rcases List.mem_append.mp he2 with hph | hch
            · obtain ⟨st, _, he3⟩ := List.mem_flatMap.mp hph
              simp only [phraseEmissionsAt] at he3
              cases hl : lookupL st.1 d.phrases with
              | none => rw [hl] at he3; simp at he3
              | some phl =>
                  rw [hl] at he3
                  obtain ⟨p, hp, heq⟩ := List.mem_map.mp he3
                  obtain ⟨kv, hkv, _, hv⟩ := lookupL_mem st.1 d.phrases phl hl
                  rw [← heq]
                  exact hwfp kv hkv p.2 (hv ▸ withIdx_mem phl 0 p hp)
            · cases hl : lookupL firstSeg.str d.toHanzi with
              | none => rw [hl] at hch; simp at hch
              | some hzs =>
                  rw [hl] at hch
                  obtain ⟨p, hp, heq⟩ := List.mem_map.mp hch
                  obtain ⟨kv, hkv, _, hv⟩ := lookupL_mem firstSeg.str d.toHanzi hzs hl
                  rw [← heq]
                  exact hwfh kv hkv p.2 (hv ▸ withIdx_mem hzs 0 p hp)
      · rw [if_neg hs] at he
        rcases List.mem_singleton.mp he with rfl
        simp only [rawOf]
        intro hcon
        exact hk (List.map_eq_nil_iff.mp hcon)

theorem candidates_mem_emission (d : Dict) (keys : List KeyGroup)
    (focus : Option Segment) (mode : CMode) (usage : List (List Char × Nat))
    (c : Candidate) (hc : c ∈ candidates d keys focus mode usage) :
    keys ≠ [] ∧ ∃ e ∈ emissionsOf d keys focus, c = mkCandidate mode usage e := by
  by_cases hk : keys.length = 0
  · rw [candidates, if_pos hk] at hc
    simp at hc
  · rw [candidates, if_neg hk] at hc
    have hc2 : c ∈ addEmissions mode usage (emissionsOf d keys focus) [] :=
      (isortLe_perm _ _).mem_iff.mp hc
    obtain ⟨_, e, hfind, hmk⟩ := addEmissions_first mode usage _ [] c hc2
    exact ⟨fun h => hk (by simp [h]),
      e, List.mem_of_find?_eq_some hfind, hmk⟩

theorem candidates_consumedLen_pos (d : Dict) (keys : List KeyGroup)
    (focus : Option Segment) (mode : CMode) (usage : List (List Char × Nat))
    (hfoc : ∀ seg, focus = some seg → 1 ≤ seg.len)
    (c : Candidate) (hc : c ∈ candidates d keys focus mode usage) :
    1 ≤ c.consumedLen := by
  obtain ⟨hk, e, he, hmk⟩ := candidates_mem_emission d keys focus mode usage c hc
  rw [hmk]
  exact emissionsOf_consumedLen_pos d keys focus hk hfoc e he

theorem candidates_value_ne (d : Dict) (keys : List KeyGroup)
    (focus : Option Segment) (mode : CMode) (usage : List (List Char × Nat))
    (hwf : DictWF d) (c : Candidate) (hc : c ∈ candidates d keys focus mode usage) :
    c.value ≠ [] := by
  obtain ⟨hk, e, he, hmk⟩ := candidates_mem_emission d keys focus mode usage c hc
  rw [hmk]
  exact emissionsOf_value_ne d keys focus hk hwf e he

/-!  ## Claim C8: the undo law -/

/-- Apply a sequence of candidate selections (state part only). -/
def selectsFrom : CompState → List Candidate → CompState
  | s, [] => s
  | s, c :: cs => selectsFrom (handleCandidateSelect c s).1 cs

/-- Apply n delete operations (state part only). -/
def deletesN : CompState → Nat → CompState
  | s, 0 => s
  | s, n + 1 => deletesN (handlePanelDelete s).1 n

theorem deletesN_succ : ∀ (n : Nat) (s : CompState),
    deletesN s (n + 1) = (handlePanelDelete (deletesN s n)).1 := by
  intro n
  induction n with
  | zero => intro s; rfl
  | succ n ih =>
      intro s
      show deletesN (handlePanelDelete s).1 (n + 1) = _
      rw [ih]
      rfl

/-- A selection sequence within one composition: each selection picks a
currently offered candidate and leaves pending keys behind (no commit). -/
def GoodSeq (d : Dict) : CompState → List Candidate → Prop
  | _, [] => True
  | s, c :: cs =>
      c ∈ candidatesOf d s ∧ s.pinyinKeys.drop c.consumedLen ≠ [] ∧
      GoodSeq d (handleCandidateSelect c s).1 cs

theorem c8_aux (d : Dict) (hwf : DictWF d) :
    ∀ (cs : List Candidate) (s : CompState), GoodSeq d s cs →
      (deletesN (selectsFrom s cs) cs.length).pinyinKeys = s.pinyinKeys ∧
      (deletesN (selectsFrom s cs) cs.length).stagedText = s.stagedText ∧
      (deletesN (selectsFrom s cs) cs.length).selectionHistory = s.selectionHistory ∧
      (deletesN (selectsFrom s cs) cs.length).focusedPinyinCandidate =
        (if cs.isEmpty then s.focusedPinyinCandidate else none) ∧
      (deletesN (selectsFrom s cs) cs.length).candidateMode = s.candidateMode := by
  intro cs
  induction cs with
  | nil => intro s _; exact ⟨rfl, rfl, rfl, rfl, rfl⟩
  | cons c cs ih =>
      intro s hg
      obtain ⟨hc, hrem, hgs⟩ := hg
      have hval : c.value ≠ [] :=
        candidates_value_ne d s.pinyinKeys s.focusedPinyinCandidate s.candidateMode
          s.usageHistory hwf c hc
      have hlenne : ¬ (s.pinyinKeys.drop c.consumedLen).length = 0 :=
        fun h => hrem (List.length_eq_zero.mp h)
      have hsel : (handleCandidateSelect c s).1 =
          ⟨s.pinyinKeys.drop c.consumedLen,
           s.stagedText ++ c.value,
           s.selectionHistory ++ [⟨c.value, s.pinyinKeys.take c.consumedLen⟩],
           none, s.candidateMode, bumpFreq s.usageHistory c.value⟩ := by
        simp only [handleCandidateSelect, if_neg hlenne]
      obtain ⟨ihk, ihst, ihh, ihf, ihm⟩ := ih (handleCandidateSelect c s).1 hgs
      have hsteps : selectsFrom s (c :: cs) = selectsFrom (handleCandidateSelect c s).1 cs := rfl
      have hlen : (c :: cs).length = cs.length + 1 := rfl
      rw [hsteps, hlen, deletesN_succ]
      have hk1 : (deletesN (selectsFrom (handleCandidateSelect c s).1 cs) cs.length).pinyinKeys =
          s.pinyinKeys.drop c.consumedLen := by rw [ihk, hsel]
      have hst1 : (deletesN (selectsFrom (handleCandidateSelect c s).1 cs) cs.length).stagedText =
          s.stagedText ++ c.value := by rw [ihst, hsel]
      have hh1 : (deletesN (selectsFrom (handleCandidateSelect c s).1 cs) cs.length).selectionHistory =
          s.selectionHistory ++ [⟨c.value, s.pinyinKeys.take c.consumedLen⟩] := by rw [ihh, hsel]
      have hf1 : (deletesN (selectsFrom (handleCandidateSelect c s).1 cs) cs.length).focusedPinyinCandidate =
          none := by
        rw [ihf, hsel]
        cases cs <;> simp
      have hm1 : (deletesN (selectsFrom (handleCandidateSelect c s).1 cs) cs.length).candidateMode =
          s.candidateMode := by rw [ihm, hsel]
      have hlast : (deletesN (selectsFrom (handleCandidateSelect c s).1 cs) cs.length).selectionHistory.getLast? =
          some ⟨c.value, s.pinyinKeys.take c.consumedLen⟩ := by
        rw [hh1]
        exact List.getLast?_concat _
      have hdel : (handlePanelDelete (deletesN (selectsFrom (handleCandidateSelect c s).1 cs) cs.length)).1 =
          { deletesN (selectsFrom (handleCandidateSelect c s).1 cs) cs.length with
              selectionHistory :=
                (deletesN (selectsFrom (handleCandidateSelect c s).1 cs) cs.length).selectionHistory.dropLast,
              stagedText :=
                stagedSlice (deletesN (selectsFrom (handleCandidateSelect c s).1 cs) cs.length).stagedText
                  c.value.length,
              pinyinKeys := s.pinyinKeys.take c.consumedLen ++
                (deletesN (selectsFrom (handleCandidateSelect c s).1 cs) cs.length).pinyinKeys,
              focusedPinyinCandidate := none } := by
        simp only [handlePanelDelete, hf1, Option.isSome_none, Bool.false_eq_true, if_false,
          hlast]
      rw [hdel]
      refine ⟨?_, ?_, ?_, ?_, ?_⟩
      · simp only [hk1]
        exact List.take_append_drop c.consumedLen s.pinyinKeys
      · simp only [hst1, stagedSlice]
        rw [if_neg (by simpa using hval)]
        have : (s.stagedText ++ c.value).length - c.value.length = s.stagedText.length := by
          simp [List.length_append]
        rw [this]
        exact List.take_left s.stagedText c.value
      · simp only [hh1]
        exact List.dropLast_concat ..
      · simp
      · simp only [hm1]

/-- C8: within one composition, selecting any sequence of offered candidates
(each selection leaving pending keys behind, so no commit happens) and then
applying the same number of delete operations restores pendingKeys,
stagedText and selectionHistory exactly to their values before the first
selection.  The dictionary is assumed well-formed (spec §6: non-empty
entries), which makes every offered candidate's value non-empty. -/
theorem c8_undo_law (d : Dict) (hwf : DictWF d) (s : CompState)
    (cs : List Candidate) (h : GoodSeq d s cs) :
    (deletesN (selectsFrom s cs) cs.length).pinyinKeys = s.pinyinKeys ∧
    (deletesN (selectsFrom s cs) cs.length).stagedText = s.stagedText ∧
    (deletesN (selectsFrom s cs) cs.length).selectionHistory = s.selectionHistory := by
  obtain ⟨h1, h2, h3, _, _⟩ := c8_aux d hwf cs s h
  exact ⟨h1, h2, h3⟩

/-- C8 witness: two pending a/e groups, select 阿 (keeping one key pending),
then one delete restores the state. -/
theorem c8_undo_law_witness :
    DictWF tieDict ∧
    GoodSeq tieDict ⟨[gAE, gAE], [], [], none, CMode.word, []⟩
      [⟨['阿'], ['阿'], 550, 1, CType.char⟩] ∧
    ((deletesN (selectsFrom ⟨[gAE, gAE], [], [], none, CMode.word, []⟩
        [⟨['阿'], ['阿'], 550, 1, CType.char⟩]) 1).pinyinKeys = [gAE, gAE] ∧
     (deletesN (selectsFrom ⟨[gAE, gAE], [], [], none, CMode.word, []⟩
        [⟨['阿'], ['阿'], 550, 1, CType.char⟩]) 1).stagedText = [] ∧
     (deletesN (selectsFrom ⟨[gAE, gAE], [], [], none, CMode.word, []⟩
        [⟨['阿'], ['阿'], 550, 1, CType.char⟩]) 1).selectionHistory = []) := by
  have hwf : DictWF tieDict := ⟨by decide, by decide, by decide⟩
  have hgood : GoodSeq tieDict ⟨[gAE, gAE], [], [], none, CMode.word, []⟩
      [⟨['阿'], ['阿'], 550, 1, CType.char⟩] := ⟨by decide, by decide, trivial⟩
  exact ⟨hwf, hgood,
    c8_undo_law tieDict hwf ⟨[gAE, gAE], [], [], none, CMode.word, []⟩
      [⟨['阿'], ['阿'], 550, 1, CType.char⟩] hgood⟩

/-!  ## Claim C9: the staged-text invariant -/

/-- The inductive invariant: the staged text is no longer than the total
text recorded in the selection history (it is rebuilt from it on undo),
staged text forces pending keys, every history entry holds the non-empty
keys it consumed, and a focused segment consumes at least one key. -/
def StagedInv (s : CompState) : Prop :=
  s.stagedText.length ≤ ((s.selectionHistory.map (fun h => h.text.length)).sum) ∧
  (s.stagedText ≠ [] → s.pinyinKeys ≠ []) ∧
  (∀ h ∈ s.selectionHistory, h.keys ≠ []) ∧
  (∀ seg, s.focusedPinyinCandidate = some seg → 1 ≤ seg.len)

theorem stagedInv_initState : StagedInv initState :=
  ⟨by simp [initState], by simp [initState], by simp [initState], by simp [initState]⟩

theorem stagedInv_clearComposition (s : CompState) : StagedInv (clearComposition s) :=
  ⟨by simp [clearComposition], by simp [clearComposition],
   by simp [clearComposition], by simp [clearComposition]⟩

theorem stagedInv_select (d : Dict) (s : CompState) (c : Candidate)
    (hc : c ∈ candidatesOf d s) (hinv : StagedInv s) :
    StagedInv (handleCandidateSelect c s).1 := by
  obtain ⟨h1, h2, h3, h4⟩ := hinv
  have hkeys : s.pinyinKeys ≠ [] :=
    (candidates_mem_emission d s.pinyinKeys s.focusedPinyinCandidate s.candidateMode
      s.usageHistory c hc).1
  have hpos : 1 ≤ c.consumedLen :=
    candidates_consumedLen_pos d s.pinyinKeys s.focusedPinyinCandidate s.candidateMode
      s.usageHistory h4 c hc
  simp only [handleCandidateSelect]
  by_cases hrem : (s.pinyinKeys.drop c.consumedLen).length = 0
  · rw [if_pos hrem]
    exact ⟨by simp [clearComposition], by simp [clearComposition],
      by simp [clearComposition], by simp [clearComposition]⟩
  · rw [if_neg hrem]
    refine ⟨?_, ?_, ?_, by simp⟩
    · simp only [List.map_append, List.sum_append, List.length_append, List.map_cons,
        List.sum_cons, List.map_nil, List.sum_nil]
      omega
    · intro _ hcon
      dsimp only at hcon
      exact hrem (by rw [hcon]; rfl)
    · intro h hmem
      rcases List.mem_append.mp hmem with hold | hnew
      · exact h3 h hold
      · rcases List.mem_singleton.mp hnew with rfl
        intro hcon
        rcases List.take_eq_nil_iff.mp hcon with h0 | h0
        · omega
        · exact hkeys h0

theorem stagedInv_panelDelete (s : CompState) (hinv : StagedInv s) : StagedInv (handlePanelDelete s).1 := by
  obtain ⟨h1, h2, h3, h4⟩ := hinv
  simp only [handlePanelDelete]
  by_cases hfoc : s.focusedPinyinCandidate.isSome
  · rw [if_pos hfoc]
    exact ⟨by simpa using h1, by simpa using h2, by simpa using h3, by simp⟩
  · rw [if_neg hfoc]
    cases hlast : s.selectionHistory.getLast? with
    | some last =>
        have hne : s.selectionHistory ≠ [] := by
          intro h; rw [h] at hlast; simp at hlast
        have hlasteq : s.selectionHistory.getLast hne = last := by
          have := List.getLast?_eq_getLast s.selectionHistory hne
          rw [hlast] at this
          exact (Option.some.inj this).symm
        have hsplit : s.selectionHistory.dropLast ++ [last] = s.selectionHistory := by
          rw [← hlasteq]
          exact List.dropLast_append_getLast hne
        have hmemlast : last ∈ s.selectionHistory := by
          rw [← hsplit]
          exact List.mem_append_right _ (List.mem_singleton.mpr rfl)
        have hsum : ((s.selectionHistory.map (fun h => h.text.length)).sum) =
            ((s.selectionHistory.dropLast.map (fun h => h.text.length)).sum) +
              last.text.length := by
          conv_lhs => rw [← hsplit]
          simp [List.map_append, List.sum_append]
        refine ⟨?_, ?_, ?_, by simp⟩
        · simp only [stagedSlice]
          by_cases hn : last.text.length = 0
          · rw [if_pos hn]; simp
          · rw [if_neg hn]
            simp only [List.length_take]
            omega
        · intro _
          intro hcon
          rcases List.append_eq_nil.mp hcon with ⟨hlk, _⟩
          exact h3 last hmemlast hlk
        · intro h hmem
          exact h3 h (List.dropLast_subset _ hmem)
    | none =>
        have hh : s.selectionHistory = [] := List.getLast?_eq_none_iff.mp hlast
        have hst : s.stagedText = [] := by
          rw [hh] at h1
          simp only [List.map_nil, List.sum_nil, Nat.le_zero] at h1
          exact List.length_eq_zero.mp h1
        by_cases hpk : 0 < s.pinyinKeys.length
        · rw [if_pos hpk]
          refine ⟨?_, ?_, by simpa using h3, by simp⟩
          · simp [hst]
          · intro hcon
            exact absurd hst (by simpa using hcon)
        · rw [if_neg hpk]
          have hst2 : ¬ 0 < s.stagedText.length := by simp [hst]
          rw [if_neg hst2]
          exact ⟨h1, h2, h3, h4⟩

theorem stagedInv_spaceFallback (s : CompState) (hinv : StagedInv s) : StagedInv (spaceFallback s).1 := by
  obtain ⟨h1, h2, h3, h4⟩ := hinv
  simp only [spaceFallback]
  by_cases hst : 0 < s.stagedText.length
  · rw [if_pos hst]
    exact ⟨by simp, by simp, by simpa using h3, by simpa using h4⟩
  · rw [if_neg hst]
    exact ⟨h1, h2, h3, h4⟩

theorem stagedInv_tap (d : Dict) (g : KeyGroup) (s : CompState) (hinv : StagedInv s) :
    StagedInv (handleTap d g s).1 := by
  obtain ⟨h1, h2, h3, h4⟩ := hinv
  have hpush : StagedInv
      { s with pinyinKeys := s.pinyinKeys ++ [g], focusedPinyinCandidate := none } := by
    refine ⟨by simpa using h1, ?_, by simpa using h3, by simp⟩
    intro _
    simp
  simp only [handleTap]
  by_cases hact : g.typ = KType.action
  · rw [if_pos hact]
    by_cases hb : g.act = some ActionK.backspace
    · rw [if_pos hb]
      exact stagedInv_panelDelete s ⟨h1, h2, h3, h4⟩
    · rw [if_neg hb]
      by_cases hsp : g.act = some ActionK.space
      · rw [if_pos hsp]
        cases hcand : candidatesOf d s with
        | nil => exact stagedInv_spaceFallback s ⟨h1, h2, h3, h4⟩
        | cons c rest =>
            simp only []
            by_cases hpk : 0 < s.pinyinKeys.length
            · rw [if_pos hpk]
              exact stagedInv_select d s c (hcand ▸ List.mem_cons_self c rest)
                ⟨h1, h2, h3, h4⟩
            · rw [if_neg hpk]
              exact stagedInv_spaceFallback s ⟨h1, h2, h3, h4⟩
      · rw [if_neg hsp]
        by_cases hen : g.act = some ActionK.enter
        · rw [if_pos hen]
          by_cases hcomp : 0 < s.pinyinKeys.length ∨ 0 < s.stagedText.length
          · rw [if_pos hcomp]
            exact stagedInv_clearComposition s
          · rw [if_neg hcomp]
            exact ⟨h1, h2, h3, h4⟩
        · rw [if_neg hen]
          exact ⟨h1, h2, h3, h4⟩
  · rw [if_neg hact]
    cases hch : g.chars with
    | none => exact ⟨h1, h2, h3, h4⟩
    | some cs =>
        cases cs with
        | nil => exact hpush
        | cons c0 cs2 =>
            cases cs2 with
            | nil => exact ⟨h1, h2, h3, h4⟩
            | cons c1 cs3 => exact hpush

theorem stagedInv_slide (ch : Char) (s : CompState) (hinv : StagedInv s) :
    StagedInv (handleSlideCommit ch s).1 := by
  simp only [handleSlideCommit]
  by_cases h : 0 < s.pinyinKeys.length ∨ 0 < s.stagedText.length
  · rw [if_pos h]
    exact stagedInv_clearComposition s
  · rw [if_neg h]
    exact hinv

theorem stagedInv_focusSet (d : Dict) (seg : Segment) (s : CompState)
    (hseg : seg ∈ availablePinyinSegments d.valid s.pinyinKeys) (hinv : StagedInv s) :
    StagedInv { s with focusedPinyinCandidate := some seg } := by
  obtain ⟨h1, h2, h3, h4⟩ := hinv
  have hpos : 1 ≤ seg.len := by
    by_cases hk : s.pinyinKeys.length = 0
    · rw [availablePinyinSegments, if_pos hk] at hseg
      simp at hseg
    · rw [availablePinyinSegments, if_neg hk] at hseg
      have hmem : seg ∈ prefixSegments d.valid s.pinyinKeys :=
        (isortLe_perm _ _).mem_iff.mp hseg
      exact ((mem_prefixSegments _ _ seg).mp hmem).1
  refine ⟨by simpa using h1, by simpa using h2, by simpa using h3, ?_⟩
  intro sg hsg
  simp only [] at hsg
  rw [← Option.some.inj hsg]
  exact hpos

theorem stagedInv_step (d : Dict) {s t : CompState} (hst : Step d s t) (hinv : StagedInv s) :
    StagedInv t := by
  cases hst with
  | tap g => exact stagedInv_tap d g s hinv
  | select c _ hc => exact stagedInv_select d s c hc hinv
  | panelDelete => exact stagedInv_panelDelete s hinv
  | cancel => exact stagedInv_clearComposition s
  | slide ch => exact stagedInv_slide ch s hinv
  | focusSet seg _ hseg => exact stagedInv_focusSet d seg s hseg hinv
  | focusClear =>
      obtain ⟨h1, h2, h3, _⟩ := hinv
      exact ⟨by simpa using h1, by simpa using h2, by simpa using h3, by simp⟩
  | modeToggle =>
      obtain ⟨h1, h2, h3, h4⟩ := hinv
      exact ⟨by simpa using h1, by simpa using h2, by simpa using h3, by simpa using h4⟩

theorem stagedInv_reachable (d : Dict) : ∀ {s : CompState}, Reachable d s → StagedInv s := by
  intro s h
  induction h with
  | start => exact stagedInv_initState
  | step _ hst ih => exact stagedInv_step d hst ih

/-- C9: in every state reachable from Idle via the composition state
machine's operations (key tap — letter, punctuation, space, enter,
backspace —, candidate selection, cancel, slide insert, focus toggle, mode
toggle), the staged text is non-empty only while the pending key buffer is
non-empty. -/
theorem c9_staged_only_while_pending (d : Dict) (s : CompState)
    (h : Reachable d s) (hs : s.stagedText ≠ []) : s.pinyinKeys ≠ [] :=
  (stagedInv_reachable d h).2.1 hs

/-- First witness state: one a/e key tapped from idle. -/
def w9s1 : CompState := (handleTap tieDict gAE initState).1

/-- Second witness state: a second a/e key tapped. -/
def w9s2 : CompState := (handleTap tieDict gAE w9s1).1

/-- Third witness state: 阿 selected, consuming one of the two keys. -/
def w9s3 : CompState :=
  (handleCandidateSelect ⟨['阿'], ['阿'], 550, 1, CType.char⟩ w9s2).1

/-- C9 witness: a concrete reachable mid-composition state with non-empty
staged text, whose pending buffer the theorem shows non-empty. -/
theorem c9_staged_only_while_pending_witness :
    w9s3.stagedText ≠ [] ∧ w9s3.pinyinKeys ≠ [] :=
  ⟨by decide,
   c9_staged_only_while_pending tieDict w9s3
     (Reachable.step
       (Reachable.step
         (Reachable.step Reachable.start (Step.tap gAE initState))
         (Step.tap gAE w9s1))
       (Step.select ⟨['阿'], ['阿'], 550, 1, CType.char⟩ w9s2 (by decide)))
     (by decide)⟩
